import Mathlib

/-!
Shallow embedding of the `u256` crate (`src/lib.rs`): a 256-bit unsigned
integer made of four 64-bit limbs, with the arithmetic, conversion, shift
and comparison operations of the source.

Modelling conventions:
* a `u64` is a `Nat` kept below `W = 2^64`; every write of a `u64` slot is
  reduced `% W`, matching the wrapping of release-mode Rust `+`/`<<`;
* an explicit `assert!` in the source is modelled by returning `none`
  (the operation aborts); fallible operations therefore return `Option`;
* the four-iteration loops of the source are unrolled; a loop that
  accumulates with `+=` into distinct slots is transcribed slot-wise
  (each result slot receives exactly the contributions the loop adds to it).
-/

/-- `W = 2^64`, the limb modulus (written as a numeral for `omega`). -/
def W : Nat := 18446744073709551616

theorem W_eq : W = 2 ^ 64 := by norm_num [W]

/-- `pub struct U256([u64; 4]);` — limb 0 first. -/
structure U256 where
  l0 : Nat
  l1 : Nat
  l2 : Nat
  l3 : Nat
deriving DecidableEq

@[ext] theorem U256.ext {x y : U256} (h0 : x.l0 = y.l0) (h1 : x.l1 = y.l1)
    (h2 : x.l2 = y.l2) (h3 : x.l3 = y.l3) : x = y := by
  cases x; cases y; simp_all

/-- Every limb is a genuine `u64` value (below `2^64`). -/
def U256.Wf (x : U256) : Prop := x.l0 < W ∧ x.l1 < W ∧ x.l2 < W ∧ x.l3 < W

instance (x : U256) : Decidable x.Wf := by unfold U256.Wf; infer_instance

/-- The number represented, limb 0 least significant (the convention
established by the carry direction of `Add`, by `Ord` and by `bits`). -/
def U256.toVal (x : U256) : Nat := x.l0 + W * (x.l1 + W * (x.l2 + W * x.l3))

/-- Array indexing `arr[i]` (indices ≥ 4 do not occur in the source). -/
def U256.limb (x : U256) : Nat → Nat
  | 0 => x.l0
  | 1 => x.l1
  | 2 => x.l2
  | _ + 3 => x.l3

/-- `pub fn zero() -> U256 { U256([0; 4]) }` -/
def U256.zero : U256 := ⟨0, 0, 0, 0⟩

/-- `pub fn low_u32(&self) -> u32 { arr[0] as u32 }` -/
def U256.low_u32 (x : U256) : Nat := x.l0 % 4294967296

/-- Bit length of a `u64` (the source's `0x40 - leading_zeros`), computed by
structural recursion on a fuel of 64 halvings. -/
def bitlenFuel : Nat → Nat → Nat
  | 0, _ => 0
  | fuel + 1, v => if v = 0 then 0 else bitlenFuel fuel (v / 2) + 1

def u64bits (v : Nat) : Nat := bitlenFuel 64 v

/-- `pub fn bits(&self) -> usize` — scan limbs 3, 2, 1, then limb 0. -/
def U256.bits (x : U256) : Nat :=
  if x.l3 > 0 then 192 + u64bits x.l3
  else if x.l2 > 0 then 128 + u64bits x.l2
  else if x.l1 > 0 then 64 + u64bits x.l1
  else u64bits x.l0

/-- `impl From<u64>: fn from(val: u64) -> U256 { U256([0, 0, 0, val]) }` —
note the value goes to slot **3**. -/
def fromU64 (val : Nat) : U256 := ⟨0, 0, 0, val⟩

/-- `impl Into<u64>: assert!(self.0[0] == 0 && self.0[1] == 0 && self.0[2] == 0);
self.0[3]` — the assert is modelled as `none`. -/
def intoU64 (x : U256) : Option Nat :=
  if x.l0 = 0 ∧ x.l1 = 0 ∧ x.l2 = 0 then some x.l3 else none

/-- `u256.0[pos] += v` of the byte-slice constructor (`pos ≤ 3` whenever the
length assert has passed, so the fall-through arm is unreachable there). -/
def addToLimb (u : U256) (pos : Nat) (v : Nat) : U256 :=
  match pos with
  | 0 => ⟨(u.l0 + v) % W, u.l1, u.l2, u.l3⟩
  | 1 => ⟨u.l0, (u.l1 + v) % W, u.l2, u.l3⟩
  | 2 => ⟨u.l0, u.l1, (u.l2 + v) % W, u.l3⟩
  | 3 => ⟨u.l0, u.l1, u.l2, (u.l3 + v) % W⟩
  | _ => u

/-- `impl<'a> From<&'a [u8]>`: `assert!(val.len() <= 32)`, then for each `i`,
with `rev = len-1-i`, add `(val[i] as u64) << ((rev % 8) * 8)` into limb
`rev / 8`.  Bytes are `u8`, hence the `% 256`. -/
def fromBytes (val : List Nat) : Option U256 :=
  if val.length ≤ 32 then
    some ((List.range val.length).foldl
      (fun u i =>
        addToLimb u ((val.length - 1 - i) / 8)
          ((val.getD i 0 % 256) * 2 ^ (((val.length - 1 - i) % 8) * 8)))
      U256.zero)
  else none

/-- `impl Not`: complement each limb (`!x = 2^64 - 1 - x` on `u64`). -/
def U256.notU (x : U256) : U256 :=
  ⟨(W - 1) - x.l0, (W - 1) - x.l1, (W - 1) - x.l2, (W - 1) - x.l3⟩

/-- `impl Add`: per limb `(v, o) = me[i].overflowing_add(you[i]);
ret[i] = v + carry_in; carry = o`.  The recorded carry is the overflow of the
*pair* sum only — overflow of `v + carry_in` wraps and is not propagated.
The final `assert!(carry == false)` is the `none` case. -/
def U256.add (a b : U256) : Option U256 :=
  if W ≤ a.l3 + b.l3 then none
  else some
    ⟨(a.l0 + b.l0) % W,
     ((a.l1 + b.l1) % W + if W ≤ a.l0 + b.l0 then 1 else 0) % W,
     ((a.l2 + b.l2) % W + if W ≤ a.l1 + b.l1 then 1 else 0) % W,
     ((a.l3 + b.l3) % W + if W ≤ a.l2 + b.l2 then 1 else 0) % W⟩

/-- `impl Sub: fn sub(self, other) -> U256 { self + !other }`. -/
def U256.sub (a b : U256) : Option U256 := a.add b.notU

/-- `pub fn mul_u32(self, other: u32) -> U256`: per limb
`upper = other * (arr[i] >> 32)`, `lower = other * (arr[i] & 0xFFFFFFFF)`,
`ret[i] = lower + (upper << 32)` (wrapping), `carry[i+1] = upper >> 32`
for `i < 3`; result `U256(ret) + U256(carry)` (which can assert). -/
def U256.mul_u32 (x : U256) (other : Nat) : Option U256 :=
  let up : Nat → Nat := fun l => other * (l / 4294967296)
  let lo : Nat → Nat := fun l => other * (l % 4294967296)
  let ret : U256 :=
    ⟨(lo x.l0 + up x.l0 * 4294967296) % W,
     (lo x.l1 + up x.l1 * 4294967296) % W,
     (lo x.l2 + up x.l2 * 4294967296) % W,
     (lo x.l3 + up x.l3 * 4294967296) % W⟩
  let carry : U256 :=
    ⟨0, up x.l0 / 4294967296, up x.l1 / 4294967296, up x.l2 / 4294967296⟩
  ret.add carry

/-- `impl Shl<usize>` transcribed slot-wise: result slot `j` receives
`original[j - word_shift] << bit_shift` (when the source's guard
`bit_shift < 64 && i + word_shift < 4` lets source slot `j - word_shift`
write there) plus the carry `original[j - word_shift - 1] >> (64 - bit_shift)`
(when `bit_shift > 0`). -/
def U256.shl (x : U256) (shift : Nat) : U256 :=
  let ws := shift / 64
  let bs := shift % 64
  let f : Nat → Nat := fun j =>
    ((if bs < 64 ∧ ws ≤ j then x.limb (j - ws) * 2 ^ bs else 0) % W
      + if 0 < bs ∧ ws + 1 ≤ j then x.limb (j - ws - 1) / 2 ^ (64 - bs) else 0) % W
  ⟨f 0, f 1, f 2, f 3⟩

/-- `impl Shr<usize>` transcribed slot-wise: result slot `j` receives
`original[j + word_shift] >> bit_shift` (for `j + word_shift < 4`) plus the
carry `original[j + word_shift + 1] << (64 - bit_shift)` when `bit_shift > 0`
and `j + word_shift < 3`. -/
def U256.shr (x : U256) (shift : Nat) : U256 :=
  let ws := shift / 64
  let bs := shift % 64
  let f : Nat → Nat := fun j =>
    ((if j + ws < 4 then x.limb (j + ws) / 2 ^ bs else 0)
      + if 0 < bs ∧ j + ws < 3 then x.limb (j + ws + 1) * 2 ^ (64 - bs) % W else 0) % W
  ⟨f 0, f 1, f 2, f 3⟩

/-- `impl Ord`: lexicographic from limb 3 down to limb 0. -/
def U256.cmp (x y : U256) : Ordering :=
  if x.l3 < y.l3 then .lt else if y.l3 < x.l3 then .gt
  else if x.l2 < y.l2 then .lt else if y.l2 < x.l2 then .gt
  else if x.l1 < y.l1 then .lt else if y.l1 < x.l1 then .gt
  else if x.l0 < y.l0 then .lt else if y.l0 < x.l0 then .gt
  else .eq

/-- `sub_copy >= shift_copy` via the derived `PartialOrd` (`cmp ≠ Less`). -/
def U256.ge (x y : U256) : Prop := x.cmp y ≠ Ordering.lt

instance (x y : U256) : Decidable (x.ge y) := by unfold U256.ge; infer_instance

/-- `ret[shift / 64] |= 1 << (shift % 64)` (in `Div`; there `shift ≤ 255`,
so the fall-through arm is unreachable). -/
def U256.setBit (r : U256) (shift : Nat) : U256 :=
  let b := 2 ^ (shift % 64)
  match shift / 64 with
  | 0 => ⟨Nat.lor r.l0 b, r.l1, r.l2, r.l3⟩
  | 1 => ⟨r.l0, Nat.lor r.l1 b, r.l2, r.l3⟩
  | 2 => ⟨r.l0, r.l1, Nat.lor r.l2 b, r.l3⟩
  | 3 => ⟨r.l0, r.l1, r.l2, Nat.lor r.l3 b⟩
  | _ => r

/-- The `loop` of `impl Div`, indexed by the decreasing `shift` counter:
if `sub_copy >= shift_copy` set the bit and subtract (which may assert),
then halve `shift_copy` and decrement `shift`, stopping after `shift = 0`. -/
def U256.divLoop : Nat → U256 → U256 → U256 → Option U256
  | 0, subc, shc, ret =>
      if subc.ge shc then (subc.sub shc).map fun _ => ret.setBit 0
      else some ret
  | s + 1, subc, shc, ret =>
      if subc.ge shc then
        match subc.sub shc with
        | none => none
        | some subc' => U256.divLoop s subc' (shc.shr 1) (ret.setBit (s + 1))
      else U256.divLoop s subc (shc.shr 1) ret

/-- `impl Div`: `assert!(your_bits != 0)`; early return `zero` when
`my_bits < your_bits`; otherwise bitwise long division. -/
def U256.div (a b : U256) : Option U256 :=
  let myBits := a.bits
  let yourBits := b.bits
  if yourBits = 0 then none
  else if myBits < yourBits then some U256.zero
  else U256.divLoop (myBits - yourBits) a (b.shl (myBits - yourBits)) U256.zero

/-- One iteration of `impl Mul`:
`me = (me + me.mul_u32((other >> (32*i)).low_u32())) << (32 * i)`. -/
def U256.mulStep (b me : U256) (i : Nat) : Option U256 :=
  (me.mul_u32 ((b.shr (32 * i)).low_u32)).bind fun p =>
    (me.add p).bind fun s => some (s.shl (32 * i))

/-- `impl Mul`: the `for i in 0..8` loop unrolled, starting from `me = self`. -/
def U256.mul (a b : U256) : Option U256 := do
  let m1 ← U256.mulStep b a 0
  let m2 ← U256.mulStep b m1 1
  let m3 ← U256.mulStep b m2 2
  let m4 ← U256.mulStep b m3 3
  let m5 ← U256.mulStep b m4 4
  let m6 ← U256.mulStep b m5 5
  let m7 ← U256.mulStep b m6 6
  U256.mulStep b m7 7

/-! ## Basic facts about the representation -/

theorem U256.zero_wf : U256.zero.Wf := by decide

theorem U256.toVal_zero : U256.zero.toVal = 0 := rfl

theorem two_pow_256_eq :
    2 ^ 256 =
      115792089237316195423570985008687907853269984665640564039457584007913129639936 := by
  norm_num

theorem U256.toVal_lt_of_wf {x : U256} (hx : x.Wf) : x.toVal < 2 ^ 256 := by
  obtain ⟨x0, x1, x2, x3⟩ := x
  rw [two_pow_256_eq]
  simp only [U256.Wf, U256.toVal, W] at *
  omega

theorem U256.toVal_inj {x y : U256} (hx : x.Wf) (hy : y.Wf)
    (h : x.toVal = y.toVal) : x = y := by
  obtain ⟨x0, x1, x2, x3⟩ := x
  obtain ⟨y0, y1, y2, y3⟩ := y
  simp only [U256.Wf, U256.toVal, W, U256.mk.injEq] at *
  omega

theorem U256.limb_zero : ∀ i, U256.zero.limb i = 0 := by
  intro i
  rcases i with _ | _ | _ | i <;> rfl

/-- The carry chain of `U256.add` propagates only the overflow of each limb
*pair*; when a limb pair sums to exactly `2^64 - 1` and also receives a
carry-in, the extra carry is lost.  This predicate rules those collisions out. -/
def noCarryClash (a b : U256) : Prop :=
  (W ≤ a.l0 + b.l0 → a.l1 + b.l1 ≠ W - 1) ∧
  (W ≤ a.l1 + b.l1 → a.l2 + b.l2 ≠ W - 1) ∧
  (W ≤ a.l2 + b.l2 → a.l3 + b.l3 ≠ W - 1)

instance (a b : U256) : Decidable (noCarryClash a b) := by
  unfold noCarryClash; infer_instance

/-! ## Claim C1 — addition -/

/-- C1, counterexample: for `a = U256([2^64-1, 2^64-1, 0, 0])` and
`b = U256([1, 0, 0, 0])` the mathematical sum `2^128` is representable, yet
`a + b` completes and returns `zero()`: the carry produced by adding the
carry-in at limb 1 is dropped, so addition is *not* correct schoolbook
addition with full carry propagation. -/
theorem add_drops_carry_cex :
    U256.add ⟨18446744073709551615, 18446744073709551615, 0, 0⟩ ⟨1, 0, 0, 0⟩
      = some U256.zero ∧
    U256.toVal ⟨18446744073709551615, 18446744073709551615, 0, 0⟩
      + U256.toVal ⟨1, 0, 0, 0⟩ < 2 ^ 256 ∧
    U256.toVal U256.zero ≠
      U256.toVal ⟨18446744073709551615, 18446744073709551615, 0, 0⟩
        + U256.toVal ⟨1, 0, 0, 0⟩ := by decide

/-- C1, amended: addition returns the mathematical sum for operands whose sum
is representable in 256 bits, *provided additionally* that no limb pair sums
to exactly `2^64 - 1` while receiving a carry-in (`noCarryClash`): each
limb's carry-out is recorded from the pair sum alone, and the overflow caused
by adding the carry itself wraps silently instead of propagating. -/
theorem add_correct_of_noCarryClash (a b : U256) (ha : a.Wf) (hb : b.Wf)
    (hs : a.toVal + b.toVal < 2 ^ 256) (hc : noCarryClash a b) :
    ∃ r, a.add b = some r ∧ r.toVal = a.toVal + b.toVal := by
  obtain ⟨a0, a1, a2, a3⟩ := a
  obtain ⟨b0, b1, b2, b3⟩ := b
  rw [two_pow_256_eq] at hs
  simp only [U256.Wf, U256.toVal, noCarryClash, U256.add, W] at *
  rw [if_neg (show ¬(18446744073709551616 ≤ a3 + b3) by omega)]
  refine ⟨_, rfl, ?_⟩
  simp only []
  split_ifs <;> omega

theorem add_correct_of_noCarryClash_witness :
    ∃ r, U256.add ⟨5, 0, 0, 0⟩ ⟨7, 0, 0, 0⟩ = some r ∧
      r.toVal = U256.toVal ⟨5, 0, 0, 0⟩ + U256.toVal ⟨7, 0, 0, 0⟩ :=
  add_correct_of_noCarryClash _ _ (by decide) (by decide) (by decide) (by decide)

/-! ## Claims C2, C3, C4 — native-integer conversions -/

/-- C2, counterexample: `fromU64 1` does *not* place the value in limb 0. -/
theorem fromU64_lsb_cex :
    ¬((fromU64 1).l0 = 1 ∧ (fromU64 1).l1 = 0 ∧ (fromU64 1).l2 = 0 ∧
      (fromU64 1).l3 = 0) := by decide

/-- C2, amended: the `u64` constructor places the value in limb **3** (the
most-significant limb under the arithmetic convention), all other limbs 0;
the represented value is therefore `v * 2^192`, not `v`. -/
theorem fromU64_places_top_limb :
    ∀ v : Nat, fromU64 v = ⟨0, 0, 0, v⟩ ∧ (fromU64 v).toVal = 2 ^ 192 * v := by
  intro v
  refine ⟨rfl, ?_⟩
  rw [show (2 : Nat) ^ 192 =
    6277101735386680763835789423207666416102355444464034512896 from by norm_num]
  simp only [fromU64, U256.toVal, W]
  omega

/-- C3, counterexample: `U256([1,0,0,0])` has limbs 1, 2, 3 all zero yet the
narrowing conversion faults on it, while `U256([0,0,0,5])` has limb 3 nonzero
yet the conversion succeeds (returning limb 3). -/
theorem intoU64_claim_cex :
    intoU64 ⟨1, 0, 0, 0⟩ = none ∧ intoU64 ⟨0, 0, 0, 5⟩ = some 5 := by decide

/-- C3, amended: the narrowing conversion succeeds exactly when limbs 0, 1
and 2 are all zero, in which case it returns limb **3**; otherwise it faults. -/
theorem intoU64_characterization :
    ∀ (x : U256) (v : Nat),
      intoU64 x = some v ↔ x.l0 = 0 ∧ x.l1 = 0 ∧ x.l2 = 0 ∧ v = x.l3 := by
  intro x v
  unfold intoU64
  split
  · simp_all [eq_comm]
  · simp_all

/-- C4, confirmed: for every `u64` value `v`, `fromU64` then `intoU64`
completes and reproduces `v` (both use limb 3, so they agree). -/
theorem fromU64_intoU64_roundtrip : ∀ v : Nat, intoU64 (fromU64 v) = some v := by
  intro v
  rfl

/-! ## Claim C5 — subtraction round-trip and commutativity -/

/-- C5, counterexample: with `a = U256([1,0,0,0])`, `b = zero()` the sum is
representable and `(a + b) - b` completes without fault but returns
`U256([0, 0, 2^64-1, 2^64-1])`, not `a`: `sub` is `a + !b` with no `+1`. -/
theorem sub_add_roundtrip_cex :
    U256.add ⟨1, 0, 0, 0⟩ U256.zero = some ⟨1, 0, 0, 0⟩ ∧
    U256.sub ⟨1, 0, 0, 0⟩ U256.zero
      = some ⟨0, 0, 18446744073709551615, 18446744073709551615⟩ ∧
    (⟨0, 0, 18446744073709551615, 18446744073709551615⟩ : U256) ≠ ⟨1, 0, 0, 0⟩ ∧
    U256.toVal ⟨1, 0, 0, 0⟩ + U256.toVal U256.zero < 2 ^ 256 := by decide

/-- C5, amended: addition is commutative — `a.add b` and `b.add a` are the
same computation (same value, and they fault together); but `(a + b) - b == a`
fails, since subtraction adds the one's complement without the `+1`. -/
theorem add_commutative (a b : U256) : a.add b = b.add a := by
  obtain ⟨a0, a1, a2, a3⟩ := a
  obtain ⟨b0, b1, b2, b3⟩ := b
  simp only [U256.add]
  rw [Nat.add_comm a0 b0, Nat.add_comm a1 b1, Nat.add_comm a2 b2,
    Nat.add_comm a3 b3]

/-! ## Claim C6 — division -/

/-- C6, counterexample: `U256([4,0,0,0]) / U256([2,0,0,0])` has a nonzero
divisor yet aborts (inside the subtraction's overflow assertion) instead of
returning the quotient `2`. -/
theorem div_four_two_aborts :
    U256.div ⟨4, 0, 0, 0⟩ ⟨2, 0, 0, 0⟩ = none ∧
    (⟨2, 0, 0, 0⟩ : U256) ≠ U256.zero := by decide

/-- C6, amended: division by `zero()` aborts for every dividend, and whenever
the dividend's bit-length is smaller than the divisor's the quotient is
`zero()`; but the claimed integer-division bound fails in general, since
`a / b` can abort for nonzero `b` (e.g. `4 / 2`). -/
theorem div_zero_and_small_dividend :
    (∀ a : U256, a.div U256.zero = none) ∧
    (∀ a b : U256, a.bits < b.bits → a.div b = some U256.zero) := by
  constructor
  · intro a
    have h : U256.zero.bits = 0 := rfl
    simp [U256.div, h]
  · intro a b h
    have hb : ¬(b.bits = 0) := by omega
    simp [U256.div, hb, h]

theorem div_zero_and_small_dividend_witness :
    U256.div ⟨1, 0, 0, 0⟩ U256.zero = none ∧
    U256.div ⟨1, 0, 0, 0⟩ ⟨2, 0, 0, 0⟩ = some U256.zero :=
  ⟨div_zero_and_small_dividend.1 _,
   div_zero_and_small_dividend.2 _ _ (by decide)⟩

/-! ## Claim C8 — multiplication faulting -/

/-- C8, counterexample: `U256([0,0,0,2^64-1]) * U256([1,0,0,0])` aborts in the
internal addition's overflow assertion — multiplication does *not* always
complete. -/
theorem mul_faults_cex :
    U256.mul ⟨0, 0, 0, 18446744073709551615⟩ ⟨1, 0, 0, 0⟩ = none := by decide

theorem add_zero_zero : U256.zero.add U256.zero = some U256.zero := by decide

theorem mul_u32_zero_left (c : Nat) : U256.zero.mul_u32 c = some U256.zero := by
  unfold U256.mul_u32
  norm_num [U256.zero]
  exact add_zero_zero

theorem shl_zero_val (n : Nat) : U256.zero.shl n = U256.zero := by
  unfold U256.shl
  ext <;> simp [U256.limb_zero] <;> rfl

theorem mulStep_zero_me (b : U256) (i : Nat) :
    U256.mulStep b U256.zero i = some U256.zero := by
  rw [U256.mulStep, mul_u32_zero_left, Option.some_bind, add_zero_zero,
    Option.some_bind, shl_zero_val]

/-- C8, amended: multiplication *can* abort via the internal addition's
overflow assertion (see the counterexample), so it does not "never fault";
a nearby statement that does hold: `zero() * b` completes and returns
`zero()` for every `b`. -/
theorem mul_zero_left_completes : ∀ b : U256, U256.zero.mul b = some U256.zero := by
  intro b
  show (U256.mulStep b U256.zero 0).bind _ = _
  rw [mulStep_zero_me, Option.some_bind]
  show (U256.mulStep b U256.zero 1).bind _ = _
  rw [mulStep_zero_me, Option.some_bind]
  show (U256.mulStep b U256.zero 2).bind _ = _
  rw [mulStep_zero_me, Option.some_bind]
  show (U256.mulStep b U256.zero 3).bind _ = _
  rw [mulStep_zero_me, Option.some_bind]
  show (U256.mulStep b U256.zero 4).bind _ = _
  rw [mulStep_zero_me, Option.some_bind]
  show (U256.mulStep b U256.zero 5).bind _ = _
  rw [mulStep_zero_me, Option.some_bind]
  show (U256.mulStep b U256.zero 6).bind _ = _
  rw [mulStep_zero_me, Option.some_bind]
  show U256.mulStep b U256.zero 7 = _
  rw [mulStep_zero_me]

/-! ## Shift machinery: limb-level shifts against the represented value -/

theorem mod_W_mod_W (a : Nat) : a % W % W = a % W := Nat.mod_mod_of_dvd a dvd_rfl

theorem U256.shl_wf (x : U256) (n : Nat) : (x.shl n).Wf := by
  unfold U256.shl U256.Wf
  refine ⟨?_, ?_, ?_, ?_⟩ <;> exact Nat.mod_lt _ (by norm_num [W])

theorem U256.shr_wf (x : U256) (n : Nat) : (x.shr n).Wf := by
  unfold U256.shr U256.Wf
  refine ⟨?_, ?_, ?_, ?_⟩ <;> exact Nat.mod_lt _ (by norm_num [W])

theorem nested_digit_lt {M K : Nat} (a b : Nat) (ha : a < M) (hb : b < K) :
    a + M * b < M * K := by
  have h1 : M * (b + 1) = M * b + M := by ring
  have h2 : M * (b + 1) ≤ M * K := Nat.mul_le_mul_left M hb
  omega

theorem shl_digit_lt {p q : Nat} (hq : 0 < q) (lj : Nat) {lk : Nat} (hk : lk / q < p) :
    lj % q * p + lk / q < q * p := by
  have h1 : lj % q + 1 ≤ q := Nat.mod_lt _ hq
  have h2 : (lj % q + 1) * p ≤ q * p := Nat.mul_le_mul_right p h1
  have h3 : (lj % q + 1) * p = lj % q * p + p := by ring
  omega

theorem shr_digit_lt {p q : Nat} (hp : 0 < p) {lj : Nat} (hj : lj / p < q) (lk : Nat) :
    lj / p + lk % p * q < p * q := by
  have h1 : lk % p + 1 ≤ p := Nat.mod_lt _ hp
  have h2 : (lk % p + 1) * q ≤ p * q := Nat.mul_le_mul_right q h1
  have h3 : (lk % p + 1) * q = lk % p * q + q := by ring
  omega

theorem limb_mul_mod {p q : Nat} (hpq : p * q = W) (l : Nat) :
    l * p % W = l % q * p := by
  rw [← hpq, Nat.mul_comm p q, Nat.mul_mod_mul_right]

theorem limb_mul_mod' {p q : Nat} (hpq : p * q = W) (l : Nat) :
    l * q % W = l % p * q := by
  rw [← hpq, Nat.mul_mod_mul_right]

/-- The purely arithmetic content of `toVal_shl_bits`: shifting the 4-digit
Horner value by `p` and truncating mod `(p*q)^4` yields the shifted digits. -/
theorem horner_shl_mod {p q : Nat} (d0 r0 d1 r1 d2 r2 d3 r3 : Nat)
    (b0 : r0 * p < p * q) (b1 : r1 * p + d0 < p * q)
    (b2 : r2 * p + d1 < p * q) (b3 : r3 * p + d2 < p * q) :
    (q * d0 + r0 + p * q * (q * d1 + r1 + p * q * (q * d2 + r2 + p * q * (q * d3 + r3)))) * p
        % (p * q * (p * q * (p * q * (p * q))))
      = r0 * p + p * q * (r1 * p + d0 + p * q * (r2 * p + d1 + p * q * (r3 * p + d2))) := by
  have hiden : (q * d0 + r0 + p * q * (q * d1 + r1 + p * q * (q * d2 + r2 + p * q * (q * d3 + r3)))) * p
      = (r0 * p + p * q * (r1 * p + d0 + p * q * (r2 * p + d1 + p * q * (r3 * p + d2))))
        + d3 * (p * q * (p * q * (p * q * (p * q)))) := by ring
  rw [hiden, Nat.add_mul_mod_self_right]
  exact Nat.mod_eq_of_lt
    (nested_digit_lt _ _ b0 (nested_digit_lt _ _ b1 (nested_digit_lt _ _ b2 b3)))

theorem horner_shr_key (p q a0 b0 a1 b1 a2 b2 a3 b3 : Nat) :
    (a0 + b1 * q + p * q * (a1 + b2 * q + p * q * (a2 + b3 * q + p * q * a3))) * p + b0
      = p * a0 + b0 + p * q * (p * a1 + b1 + p * q * (p * a2 + b2 + p * q * (p * a3 + b3))) := by
  ring

/-- `x.shl bs` for a sub-word shift `0 < bs < 64`, slot by slot. -/
theorem shl_bits_rep (x : U256) {bs : Nat} (hbs : bs < 64) (hz : 0 < bs) :
    x.shl bs = ⟨x.l0 * 2 ^ bs % W,
                (x.l1 * 2 ^ bs % W + x.l0 / 2 ^ (64 - bs)) % W,
                (x.l2 * 2 ^ bs % W + x.l1 / 2 ^ (64 - bs)) % W,
                (x.l3 * 2 ^ bs % W + x.l2 / 2 ^ (64 - bs)) % W⟩ := by
  have e1 : bs / 64 = 0 := Nat.div_eq_of_lt hbs
  have e2 : bs % 64 = bs := Nat.mod_eq_of_lt hbs
  unfold U256.shl
  ext <;> simp [e1, e2, hbs, hz, U256.limb, mod_W_mod_W]

/-- `x.shr bs` for a sub-word shift `0 < bs < 64`, slot by slot. -/
theorem shr_bits_rep (x : U256) {bs : Nat} (hbs : bs < 64) (hz : 0 < bs) :
    x.shr bs = ⟨(x.l0 / 2 ^ bs + x.l1 * 2 ^ (64 - bs) % W) % W,
                (x.l1 / 2 ^ bs + x.l2 * 2 ^ (64 - bs) % W) % W,
                (x.l2 / 2 ^ bs + x.l3 * 2 ^ (64 - bs) % W) % W,
                x.l3 / 2 ^ bs % W⟩ := by
  have e1 : bs / 64 = 0 := Nat.div_eq_of_lt hbs
  have e2 : bs % 64 = bs := Nat.mod_eq_of_lt hbs
  unfold U256.shr
  ext <;> simp [e1, e2, hz, U256.limb]

theorem shl_zero_of_wf (x : U256) (hx : x.Wf) : x.shl 0 = x := by
  obtain ⟨x0, x1, x2, x3⟩ := x
  simp only [U256.Wf, W] at hx
  unfold U256.shl
  ext <;> simp [U256.limb, W] <;> omega

theorem shr_zero_of_wf (x : U256) (hx : x.Wf) : x.shr 0 = x := by
  obtain ⟨x0, x1, x2, x3⟩ := x
  simp only [U256.Wf, W] at hx
  unfold U256.shr
  ext <;> simp [U256.limb, W] <;> omega

/-- Value of a sub-word left shift: multiply and truncate mod `2^256`. -/
theorem toVal_shl_bits (x : U256) (hx : x.Wf) {bs : Nat} (hbs : bs < 64) :
    (x.shl bs).toVal = x.toVal * 2 ^ bs % 2 ^ 256 := by
  obtain ⟨x0, x1, x2, x3⟩ := x
  obtain ⟨h0, h1, h2, h3⟩ := hx
  rcases Nat.eq_zero_or_pos bs with hz | hz
  · subst hz
    rw [shl_zero_of_wf _ ⟨h0, h1, h2, h3⟩, pow_zero, Nat.mul_one,
      Nat.mod_eq_of_lt (U256.toVal_lt_of_wf ⟨h0, h1, h2, h3⟩)]
  · have hpq : 2 ^ bs * 2 ^ (64 - bs) = W := by
      rw [W_eq, ← pow_add]
      congr 1
      omega
    have hqpos : 0 < 2 ^ (64 - bs) := Nat.two_pow_pos _
    have hppos : 0 < 2 ^ bs := Nat.two_pow_pos _
    have hd0 : x0 / 2 ^ (64 - bs) < 2 ^ bs :=
      Nat.div_lt_of_lt_mul (by rw [Nat.mul_comm (2 ^ (64 - bs)) (2 ^ bs), hpq]; exact h0)
    have hd1 : x1 / 2 ^ (64 - bs) < 2 ^ bs :=
      Nat.div_lt_of_lt_mul (by rw [Nat.mul_comm (2 ^ (64 - bs)) (2 ^ bs), hpq]; exact h1)
    have hd2 : x2 / 2 ^ (64 - bs) < 2 ^ bs :=
      Nat.div_lt_of_lt_mul (by rw [Nat.mul_comm (2 ^ (64 - bs)) (2 ^ bs), hpq]; exact h2)
    have m1 : (x1 % 2 ^ (64 - bs) * 2 ^ bs + x0 / 2 ^ (64 - bs)) % W
        = x1 % 2 ^ (64 - bs) * 2 ^ bs + x0 / 2 ^ (64 - bs) :=
      Nat.mod_eq_of_lt (by rw [← hpq, Nat.mul_comm (2 ^ bs) (2 ^ (64 - bs))]
                          ; exact shl_digit_lt hqpos x1 hd0)
    have m2 : (x2 % 2 ^ (64 - bs) * 2 ^ bs + x1 / 2 ^ (64 - bs)) % W
        = x2 % 2 ^ (64 - bs) * 2 ^ bs + x1 / 2 ^ (64 - bs) :=
      Nat.mod_eq_of_lt (by rw [← hpq, Nat.mul_comm (2 ^ bs) (2 ^ (64 - bs))]
                          ; exact shl_digit_lt hqpos x2 hd1)
    have m3 : (x3 % 2 ^ (64 - bs) * 2 ^ bs + x2 / 2 ^ (64 - bs)) % W
        = x3 % 2 ^ (64 - bs) * 2 ^ bs + x2 / 2 ^ (64 - bs) :=
      Nat.mod_eq_of_lt (by rw [← hpq, Nat.mul_comm (2 ^ bs) (2 ^ (64 - bs))]
                          ; exact shl_digit_lt hqpos x3 hd2)
    rw [shl_bits_rep _ hbs hz]
    simp only [U256.toVal]
    rw [limb_mul_mod hpq x0, limb_mul_mod hpq x1, limb_mul_mod hpq x2,
      limb_mul_mod hpq x3, m1, m2, m3]
    have b0 : x0 % 2 ^ (64 - bs) * 2 ^ bs < 2 ^ bs * 2 ^ (64 - bs) := by
      rw [Nat.mul_comm (2 ^ bs) (2 ^ (64 - bs))]
      exact Nat.mul_lt_mul_of_lt_of_le (Nat.mod_lt _ hqpos) (Nat.le_refl _) hppos
    have b1 : x1 % 2 ^ (64 - bs) * 2 ^ bs + x0 / 2 ^ (64 - bs) < 2 ^ bs * 2 ^ (64 - bs) := by
      rw [Nat.mul_comm (2 ^ bs) (2 ^ (64 - bs))]
      exact shl_digit_lt hqpos x1 hd0
    have b2 : x2 % 2 ^ (64 - bs) * 2 ^ bs + x1 / 2 ^ (64 - bs) < 2 ^ bs * 2 ^ (64 - bs) := by
      rw [Nat.mul_comm (2 ^ bs) (2 ^ (64 - bs))]
      exact shl_digit_lt hqpos x2 hd1
    have b3 : x3 % 2 ^ (64 - bs) * 2 ^ bs + x2 / 2 ^ (64 - bs) < 2 ^ bs * 2 ^ (64 - bs) := by
      rw [Nat.mul_comm (2 ^ bs) (2 ^ (64 - bs))]
      exact shl_digit_lt hqpos x3 hd2
    have hx0 : x0 = 2 ^ (64 - bs) * (x0 / 2 ^ (64 - bs)) + x0 % 2 ^ (64 - bs) :=
      (Nat.div_add_mod x0 (2 ^ (64 - bs))).symm
    have hx1 : x1 = 2 ^ (64 - bs) * (x1 / 2 ^ (64 - bs)) + x1 % 2 ^ (64 - bs) :=
      (Nat.div_add_mod x1 (2 ^ (64 - bs))).symm
    have hx2 : x2 = 2 ^ (64 - bs) * (x2 / 2 ^ (64 - bs)) + x2 % 2 ^ (64 - bs) :=
      (Nat.div_add_mod x2 (2 ^ (64 - bs))).symm
    have hx3 : x3 = 2 ^ (64 - bs) * (x3 / 2 ^ (64 - bs)) + x3 % 2 ^ (64 - bs) :=
      (Nat.div_add_mod x3 (2 ^ (64 - bs))).symm
    conv_rhs => rw [hx0, hx1, hx2, hx3]
    rw [show (2 : Nat) ^ 256 = W * (W * (W * W)) from by norm_num [W]]
    rw [← hpq]
    exact (horner_shl_mod _ _ _ _ _ _ _ _ b0 b1 b2 b3).symm

/-- Value of a sub-word right shift: floor division by `2^bs`. -/
theorem toVal_shr_bits (x : U256) (hx : x.Wf) {bs : Nat} (hbs : bs < 64) :
    (x.shr bs).toVal = x.toVal / 2 ^ bs := by
  obtain ⟨x0, x1, x2, x3⟩ := x
  obtain ⟨h0, h1, h2, h3⟩ := hx
  rcases Nat.eq_zero_or_pos bs with hz | hz
  · subst hz
    rw [shr_zero_of_wf _ ⟨h0, h1, h2, h3⟩, pow_zero, Nat.div_one]
  · have hpq : 2 ^ bs * 2 ^ (64 - bs) = W := by
      rw [W_eq, ← pow_add]
      congr 1
      omega
    have hppos : 0 < 2 ^ bs := Nat.two_pow_pos _
    have hqpos : 0 < 2 ^ (64 - bs) := Nat.two_pow_pos _
    have hd0 : x0 / 2 ^ bs < 2 ^ (64 - bs) :=
      Nat.div_lt_of_lt_mul (by rw [hpq]; exact h0)
    have hd1 : x1 / 2 ^ bs < 2 ^ (64 - bs) :=
      Nat.div_lt_of_lt_mul (by rw [hpq]; exact h1)
    have hd2 : x2 / 2 ^ bs < 2 ^ (64 - bs) :=
      Nat.div_lt_of_lt_mul (by rw [hpq]; exact h2)
    have m0 : (x0 / 2 ^ bs + x1 * 2 ^ (64 - bs) % W) % W
        = x0 / 2 ^ bs + x1 % 2 ^ bs * 2 ^ (64 - bs) := by
      rw [limb_mul_mod' hpq x1]
      exact Nat.mod_eq_of_lt (by rw [← hpq]; exact shr_digit_lt hppos hd0 x1)
    have m1 : (x1 / 2 ^ bs + x2 * 2 ^ (64 - bs) % W) % W
        = x1 / 2 ^ bs + x2 % 2 ^ bs * 2 ^ (64 - bs) := by
      rw [limb_mul_mod' hpq x2]
      exact Nat.mod_eq_of_lt (by rw [← hpq]; exact shr_digit_lt hppos hd1 x2)
    have m2 : (x2 / 2 ^ bs + x3 * 2 ^ (64 - bs) % W) % W
        = x2 / 2 ^ bs + x3 % 2 ^ bs * 2 ^ (64 - bs) := by
      rw [limb_mul_mod' hpq x3]
      exact Nat.mod_eq_of_lt (by rw [← hpq]; exact shr_digit_lt hppos hd2 x3)
    have m3 : x3 / 2 ^ bs % W = x3 / 2 ^ bs :=
      Nat.mod_eq_of_lt (lt_of_le_of_lt (Nat.div_le_self _ _) h3)
    rw [shr_bits_rep _ hbs hz]
    simp only [U256.toVal]
    rw [m0, m1, m2, m3]
    have hX : 2 ^ bs * (x0 / 2 ^ bs) + x0 % 2 ^ bs
        + 2 ^ bs * 2 ^ (64 - bs) * (2 ^ bs * (x1 / 2 ^ bs) + x1 % 2 ^ bs
          + 2 ^ bs * 2 ^ (64 - bs) * (2 ^ bs * (x2 / 2 ^ bs) + x2 % 2 ^ bs
            + 2 ^ bs * 2 ^ (64 - bs) * (2 ^ bs * (x3 / 2 ^ bs) + x3 % 2 ^ bs)))
        = x0 + W * (x1 + W * (x2 + W * x3)) := by
      rw [Nat.div_add_mod, hpq, Nat.div_add_mod, Nat.div_add_mod, Nat.div_add_mod]
    have key := horner_shr_key (2 ^ bs) (2 ^ (64 - bs)) (x0 / 2 ^ bs) (x0 % 2 ^ bs)
      (x1 / 2 ^ bs) (x1 % 2 ^ bs) (x2 / 2 ^ bs) (x2 % 2 ^ bs) (x3 / 2 ^ bs) (x3 % 2 ^ bs)
    rw [hX] at key
    rw [hpq] at key
    refine (Nat.div_eq_of_lt_le ?_ ?_).symm
    · omega
    · rw [add_one_mul]
      have hr : x0 % 2 ^ bs < 2 ^ bs := Nat.mod_lt _ hppos
      omega

/-- Value of a whole-word left shift `64 * k`. -/
theorem toVal_shl_word (x : U256) (hx : x.Wf) (k : Nat) :
    (x.shl (64 * k)).toVal = x.toVal * 2 ^ (64 * k) % 2 ^ 256 := by
  obtain ⟨x0, x1, x2, x3⟩ := x
  simp only [U256.Wf, W] at hx
  obtain ⟨h0, h1, h2, h3⟩ := hx
  match k with
  | 0 =>
    rw [Nat.mul_zero, shl_zero_of_wf _ ⟨h0, h1, h2, h3⟩, pow_zero, Nat.mul_one,
      Nat.mod_eq_of_lt (U256.toVal_lt_of_wf ⟨h0, h1, h2, h3⟩)]
  | 1 =>
    have rep : (U256.mk x0 x1 x2 x3).shl (64 * 1) = ⟨0, x0, x1, x2⟩ := by
      unfold U256.shl
      ext <;> simp [U256.limb, W] at * <;> omega
    rw [rep]
    simp only [U256.toVal, W]
    rw [show (2 : Nat) ^ (64 * 1) = 18446744073709551616 from by norm_num, two_pow_256_eq]
    omega
  | 2 =>
    have rep : (U256.mk x0 x1 x2 x3).shl (64 * 2) = ⟨0, 0, x0, x1⟩ := by
      unfold U256.shl
      ext <;> simp [U256.limb, W] at * <;> omega
    rw [rep]
    simp only [U256.toVal, W]
    rw [show (2 : Nat) ^ (64 * 2) = 340282366920938463463374607431768211456 from by norm_num,
      two_pow_256_eq]
    omega
  | 3 =>
    have rep : (U256.mk x0 x1 x2 x3).shl (64 * 3) = ⟨0, 0, 0, x0⟩ := by
      unfold U256.shl
      ext <;> simp [U256.limb, W] at * <;> omega
    rw [rep]
    simp only [U256.toVal, W]
    rw [show (2 : Nat) ^ (64 * 3)
        = 6277101735386680763835789423207666416102355444464034512896 from by norm_num,
      two_pow_256_eq]
    omega
  | k + 4 =>
    have hd : 64 * (k + 4) / 64 = k + 4 := by omega
    have hm : 64 * (k + 4) % 64 = 0 := by omega
    have c0 : ¬(k + 4 ≤ 0) := by omega
    have c1 : ¬(k + 4 ≤ 1) := by omega
    have c2 : ¬(k + 4 ≤ 2) := by omega
    have c3 : ¬(k + 4 ≤ 3) := by omega
    have rep : (U256.mk x0 x1 x2 x3).shl (64 * (k + 4)) = U256.zero := by
      unfold U256.shl
      ext <;> simp [hd, hm, c0, c1, c2, c3, U256.zero]
    rw [rep, U256.toVal_zero, show 64 * (k + 4) = 64 * k + 256 from by ring, pow_add,
      ← Nat.mul_assoc, Nat.mul_mod_left]

/-- Value of a whole-word right shift `64 * k`. -/
theorem toVal_shr_word (x : U256) (hx : x.Wf) (k : Nat) :
    (x.shr (64 * k)).toVal = x.toVal / 2 ^ (64 * k) := by
  obtain ⟨x0, x1, x2, x3⟩ := x
  simp only [U256.Wf, W] at hx
  obtain ⟨h0, h1, h2, h3⟩ := hx
  match k with
  | 0 =>
    rw [Nat.mul_zero, shr_zero_of_wf _ ⟨h0, h1, h2, h3⟩, pow_zero, Nat.div_one]
  | 1 =>
    have rep : (U256.mk x0 x1 x2 x3).shr (64 * 1) = ⟨x1, x2, x3, 0⟩ := by
      unfold U256.shr
      ext <;> simp [U256.limb, W] at * <;> omega
    rw [rep]
    simp only [U256.toVal, W]
    rw [show (2 : Nat) ^ (64 * 1) = 18446744073709551616 from by norm_num]
    omega
  | 2 =>
    have rep : (U256.mk x0 x1 x2 x3).shr (64 * 2) = ⟨x2, x3, 0, 0⟩ := by
      unfold U256.shr
      ext <;> simp [U256.limb, W] at * <;> omega
    rw [rep]
    simp only [U256.toVal, W]
    rw [show (2 : Nat) ^ (64 * 2) = 340282366920938463463374607431768211456 from by norm_num]
    omega
  | 3 =>
    have rep : (U256.mk x0 x1 x2 x3).shr (64 * 3) = ⟨x3, 0, 0, 0⟩ := by
      unfold U256.shr
      ext <;> simp [U256.limb, W] at * <;> omega
    rw [rep]
    simp only [U256.toVal, W]
    rw [show (2 : Nat) ^ (64 * 3)
        = 6277101735386680763835789423207666416102355444464034512896 from by norm_num]
    omega
  | k + 4 =>
    have hd : 64 * (k + 4) / 64 = k + 4 := by omega
    have hm : 64 * (k + 4) % 64 = 0 := by omega
    have c0 : ¬(0 + (k + 4) < 4) := by omega
    have c1 : ¬(1 + (k + 4) < 4) := by omega
    have c2 : ¬(2 + (k + 4) < 4) := by omega
    have c3 : ¬(3 + (k + 4) < 4) := by omega
    have rep : (U256.mk x0 x1 x2 x3).shr (64 * (k + 4)) = U256.zero := by
      unfold U256.shr
      ext <;> simp [hd, hm, c0, c1, c2, c3, U256.zero]
    rw [rep, U256.toVal_zero]
    refine (Nat.div_eq_of_lt ?_).symm
    calc (U256.mk x0 x1 x2 x3).toVal < 2 ^ 256 := U256.toVal_lt_of_wf ⟨h0, h1, h2, h3⟩
      _ ≤ 2 ^ (64 * (k + 4)) := Nat.pow_le_pow_right (by norm_num) (by omega)

/-- A left shift is the sub-word shift followed by the whole-word shift. -/
theorem shl_decomp (x : U256) (m : Nat) :
    x.shl m = (x.shl (m % 64)).shl (64 * (m / 64)) := by
  have hbs : m % 64 < 64 := Nat.mod_lt _ (by norm_num)
  have e1 : m % 64 / 64 = 0 := Nat.div_eq_of_lt hbs
  have e2 : m % 64 % 64 = m % 64 := Nat.mod_eq_of_lt hbs
  rcases hk : m / 64 with _ | _ | _ | _ | k
  · rw [Nat.mul_zero, shl_zero_of_wf _ (U256.shl_wf x _),
      show m % 64 = m from by omega]
  · unfold U256.shl
    ext <;> simp [hk, e1, e2, hbs, U256.limb, mod_W_mod_W]
  · unfold U256.shl
    ext <;> simp [hk, e1, e2, hbs, U256.limb, mod_W_mod_W]
  · unfold U256.shl
    ext <;> simp [hk, e1, e2, hbs, U256.limb, mod_W_mod_W]
  · have hd : 64 * (k + 4) / 64 = k + 4 := by omega
    have hm' : 64 * (k + 4) % 64 = 0 := by omega
    have c0 : ¬(k + 4 ≤ 0) := by omega
    have c1 : ¬(k + 4 ≤ 1) := by omega
    have c2 : ¬(k + 4 ≤ 2) := by omega
    have c3 : ¬(k + 4 ≤ 3) := by omega
    unfold U256.shl
    ext <;> simp [hk, hd, hm', e1, e2, c0, c1, c2, c3]

/-- A right shift is the whole-word shift followed by the sub-word shift
(on well-formed values). -/
theorem shr_decomp (x : U256) (hx : x.Wf) (m : Nat) :
    x.shr m = (x.shr (64 * (m / 64))).shr (m % 64) := by
  have hbs : m % 64 < 64 := Nat.mod_lt _ (by norm_num)
  have e1 : m % 64 / 64 = 0 := Nat.div_eq_of_lt hbs
  have e2 : m % 64 % 64 = m % 64 := Nat.mod_eq_of_lt hbs
  have w0 : x.l0 % W = x.l0 := Nat.mod_eq_of_lt hx.1
  have w1 : x.l1 % W = x.l1 := Nat.mod_eq_of_lt hx.2.1
  have w2 : x.l2 % W = x.l2 := Nat.mod_eq_of_lt hx.2.2.1
  have w3 : x.l3 % W = x.l3 := Nat.mod_eq_of_lt hx.2.2.2
  rcases hk : m / 64 with _ | _ | _ | _ | k
  · rw [Nat.mul_zero, shr_zero_of_wf _ hx, show m % 64 = m from by omega]
  · unfold U256.shr
    ext <;> simp [hk, e1, e2, U256.limb, w0, w1, w2, w3, mod_W_mod_W]
  · unfold U256.shr
    ext <;> simp [hk, e1, e2, U256.limb, w0, w1, w2, w3, mod_W_mod_W]
  · unfold U256.shr
    ext <;> simp [hk, e1, e2, U256.limb, w0, w1, w2, w3, mod_W_mod_W]
  · have hd : 64 * (k + 4) / 64 = k + 4 := by omega
    have hm' : 64 * (k + 4) % 64 = 0 := by omega
    unfold U256.shr
    ext <;> simp [hk, hd, hm', e1, e2, U256.limb] <;> split_ifs <;>
      first
        | (exfalso; omega)
        | simp

/-- Value of `impl Shl`: multiply by `2^shift`, truncating mod `2^256`. -/
theorem toVal_shl (x : U256) (hx : x.Wf) (m : Nat) :
    (x.shl m).toVal = x.toVal * 2 ^ m % 2 ^ 256 := by
  rw [shl_decomp x m, toVal_shl_word _ (U256.shl_wf x _) (m / 64),
    toVal_shl_bits x hx (Nat.mod_lt _ (by norm_num)), Nat.mod_mul_mod,
    Nat.mul_assoc, ← pow_add, show m % 64 + 64 * (m / 64) = m from by omega]

/-- Value of `impl Shr`: floor division by `2^shift`. -/
theorem toVal_shr (x : U256) (hx : x.Wf) (m : Nat) :
    (x.shr m).toVal = x.toVal / 2 ^ m := by
  rw [shr_decomp x hx m, toVal_shr_bits _ (U256.shr_wf x _) (Nat.mod_lt _ (by norm_num)),
    toVal_shr_word x hx (m / 64), Nat.div_div_eq_div_mul, ← pow_add,
    show 64 * (m / 64) + m % 64 = m from by omega]

/-! ## Bit length bounds and the shift claims -/

theorem bitlenFuel_spec : ∀ (fuel v : Nat), v < 2 ^ fuel → v < 2 ^ bitlenFuel fuel v := by
  intro fuel
  induction fuel with
  | zero => intro v hv; simpa [bitlenFuel] using hv
  | succ n ih =>
    intro v hv
    by_cases h : v = 0
    · subst h; simp [bitlenFuel]
    · have hsplit : 2 ^ (n + 1) = 2 * 2 ^ n := by ring
      have hv2 : v / 2 < 2 ^ n := by omega
      have hrec := ih (v / 2) hv2
      simp only [bitlenFuel, h, if_false]
      have hp : 2 ^ (bitlenFuel n (v / 2) + 1) = 2 * 2 ^ bitlenFuel n (v / 2) := by ring
      omega

theorem u64bits_spec {v : Nat} (hv : v < W) : v < 2 ^ u64bits v :=
  bitlenFuel_spec 64 v (by rw [← W_eq]; exact hv)

/-- The represented value is below `2^bits`. -/
theorem toVal_lt_two_pow_bits (x : U256) (hx : x.Wf) : x.toVal < 2 ^ x.bits := by
  obtain ⟨x0, x1, x2, x3⟩ := x
  simp only [U256.Wf, W] at hx
  obtain ⟨h0, h1, h2, h3⟩ := hx
  have b0 : x0 < 2 ^ u64bits x0 := u64bits_spec (by simp only [W]; omega)
  have b1 : x1 < 2 ^ u64bits x1 := u64bits_spec (by simp only [W]; omega)
  have b2 : x2 < 2 ^ u64bits x2 := u64bits_spec (by simp only [W]; omega)
  have b3 : x3 < 2 ^ u64bits x3 := u64bits_spec (by simp only [W]; omega)
  unfold U256.bits
  split_ifs with c3 c2 c1
  · rw [pow_add, show (2 : Nat) ^ 192
      = 6277101735386680763835789423207666416102355444464034512896 from by norm_num]
    simp only [U256.toVal, W] at *
    omega
  · rw [pow_add, show (2 : Nat) ^ 128
      = 340282366920938463463374607431768211456 from by norm_num]
    simp only [U256.toVal, W] at *
    omega
  · rw [pow_add, show (2 : Nat) ^ 64 = 18446744073709551616 from by norm_num]
    simp only [U256.toVal, W] at *
    omega
  · simp only [U256.toVal, W] at *
    omega

/-- C9, confirmed: `(a << m) >> m == a` whenever `m < 256` and
`a.bits() + m ≤ 256` (no bits are shifted out), and any shift by `≥ 256`
yields `zero()` — for both `<<` and `>>`. -/
theorem shl_shr_roundtrip_and_big (a : U256) (m : Nat) (ha : a.Wf) :
    (m < 256 → a.bits + m ≤ 256 → (a.shl m).shr m = a) ∧
    (256 ≤ m → a.shl m = U256.zero ∧ a.shr m = U256.zero) := by
  constructor
  · intro _ hbits
    apply U256.toVal_inj (U256.shr_wf _ _) ha
    rw [toVal_shr _ (U256.shl_wf a m) m, toVal_shl a ha m]
    have h1 : a.toVal < 2 ^ a.bits := toVal_lt_two_pow_bits a ha
    have h2 : a.toVal * 2 ^ m < 2 ^ 256 := by
      calc a.toVal * 2 ^ m < 2 ^ a.bits * 2 ^ m :=
            (Nat.mul_lt_mul_right (Nat.two_pow_pos m)).mpr h1
        _ = 2 ^ (a.bits + m) := (pow_add 2 _ _).symm
        _ ≤ 2 ^ 256 := Nat.pow_le_pow_right (by norm_num) hbits
    rw [Nat.mod_eq_of_lt h2, Nat.mul_div_cancel _ (Nat.two_pow_pos m)]
  · intro hm
    have hws : 4 ≤ m / 64 := by omega
    constructor
    · unfold U256.shl
      have c0 : ¬(m / 64 ≤ 0) := by omega
      have c1 : ¬(m / 64 ≤ 1) := by omega
      have c2 : ¬(m / 64 ≤ 2) := by omega
      have c3 : ¬(m / 64 ≤ 3) := by omega
      have d0 : ¬(m / 64 + 1 ≤ 0) := by omega
      have d1 : ¬(m / 64 + 1 ≤ 1) := by omega
      have d2 : ¬(m / 64 + 1 ≤ 2) := by omega
      have d3 : ¬(m / 64 + 1 ≤ 3) := by omega
      ext <;> simp [c0, c1, c2, c3, d0, d1, d2, d3, U256.zero]
    · unfold U256.shr
      have c0 : ¬(m / 64 < 4) := by omega
      have c1 : ¬(1 + m / 64 < 4) := by omega
      have c2 : ¬(2 + m / 64 < 4) := by omega
      have c3 : ¬(3 + m / 64 < 4) := by omega
      have d0 : ¬(m / 64 < 3) := by omega
      have d1 : ¬(1 + m / 64 < 3) := by omega
      have d2 : ¬(2 + m / 64 < 3) := by omega
      have d3 : ¬(3 + m / 64 < 3) := by omega
      ext <;> simp [c0, c1, c2, c3, d0, d1, d2, d3, U256.zero]

theorem shl_shr_roundtrip_and_big_witness :
    (U256.shl ⟨5, 0, 0, 0⟩ 3).shr 3 = ⟨5, 0, 0, 0⟩ ∧
    U256.shl ⟨5, 0, 0, 0⟩ 300 = U256.zero ∧
    U256.shr ⟨5, 0, 0, 0⟩ 300 = U256.zero :=
  ⟨(shl_shr_roundtrip_and_big ⟨5, 0, 0, 0⟩ 3 (by decide)).1 (by decide) (by decide),
   ((shl_shr_roundtrip_and_big ⟨5, 0, 0, 0⟩ 300 (by decide)).2 (by decide)).1,
   ((shl_shr_roundtrip_and_big ⟨5, 0, 0, 0⟩ 300 (by decide)).2 (by decide)).2⟩

/-! ## Claim C7 — multiplicative identities -/

theorem add_zero_right (x : U256) (hx : x.Wf) : x.add U256.zero = some x := by
  obtain ⟨x0, x1, x2, x3⟩ := x
  simp only [U256.Wf, W] at hx
  obtain ⟨h0, h1, h2, h3⟩ := hx
  simp only [U256.add, U256.zero, W]
  rw [if_neg (by omega)]
  refine congrArg some ?_
  ext <;> simp only [] <;> first | omega | (split_ifs <;> omega)

theorem mul_u32_zero_right (x : U256) : x.mul_u32 0 = some U256.zero := by
  unfold U256.mul_u32
  norm_num
  exact add_zero_zero

/-- A multiplication step whose extracted 32-bit chunk is zero just shifts
the accumulator. -/
theorem mulStep_low0 (b me : U256) (i : Nat) (hme : me.Wf)
    (hc : (b.shr (32 * i)).low_u32 = 0) :
    U256.mulStep b me i = some (me.shl (32 * i)) := by
  rw [U256.mulStep, hc, mul_u32_zero_right, Option.some_bind,
    add_zero_right me hme, Option.some_bind]

theorem shr_zero_val (n : Nat) : U256.zero.shr n = U256.zero := by
  unfold U256.shr
  ext <;> simp [U256.limb_zero] <;> rfl

/-- Two consecutive left shifts totalling at least 256 bits wipe the value. -/
theorem shl_shl_ge256 (y : U256) (hy : y.Wf) (n1 n2 : Nat) (h : 256 ≤ n1 + n2) :
    (y.shl n1).shl n2 = U256.zero := by
  apply U256.toVal_inj (U256.shl_wf _ _) U256.zero_wf
  rw [toVal_shl _ (U256.shl_wf y n1) n2, toVal_shl y hy n1, Nat.mod_mul_mod,
    U256.toVal_zero, Nat.mul_assoc, ← pow_add,
    show n1 + n2 = n1 + n2 - 256 + 256 from by omega, pow_add, ← Nat.mul_assoc,
    Nat.mul_mod_left]

/-- C7, amended: `a * zero() == zero()` for every value `a`; but
`a * from(1u64) == zero()` as well (not `a`): `from(1u64)` carries the 1 in
limb 3, the multiply loop extracts it only at chunk `i = 6`, and by then the
cumulative `<< 32*i` shifts have already wiped the accumulator. -/
theorem mul_zero_and_mul_one (a : U256) (ha : a.Wf) :
    a.mul U256.zero = some U256.zero ∧ a.mul (fromU64 1) = some U256.zero := by
  constructor
  · have hc : ∀ i : Nat, (U256.zero.shr (32 * i)).low_u32 = 0 := fun i => by
      rw [shr_zero_val]; rfl
    show (U256.mulStep U256.zero a 0).bind _ = _
    rw [mulStep_low0 _ _ _ ha (hc 0), Option.some_bind]
    show (U256.mulStep U256.zero (a.shl (32 * 0)) 1).bind _ = _
    rw [mulStep_low0 _ _ _ (U256.shl_wf _ _) (hc 1), Option.some_bind]
    show (U256.mulStep U256.zero ((a.shl (32 * 0)).shl (32 * 1)) 2).bind _ = _
    rw [mulStep_low0 _ _ _ (U256.shl_wf _ _) (hc 2), Option.some_bind]
    show (U256.mulStep U256.zero (((a.shl (32 * 0)).shl (32 * 1)).shl (32 * 2)) 3).bind _ = _
    rw [mulStep_low0 _ _ _ (U256.shl_wf _ _) (hc 3), Option.some_bind]
    show (U256.mulStep U256.zero ((((a.shl (32 * 0)).shl (32 * 1)).shl (32 * 2)).shl (32 * 3))
      4).bind _ = _
    rw [mulStep_low0 _ _ _ (U256.shl_wf _ _) (hc 4), Option.some_bind]
    show (U256.mulStep U256.zero (((((a.shl (32 * 0)).shl (32 * 1)).shl (32 * 2)).shl
      (32 * 3)).shl (32 * 4)) 5).bind _ = _
    rw [mulStep_low0 _ _ _ (U256.shl_wf _ _) (hc 5), Option.some_bind]
    rw [shl_shl_ge256 ((((a.shl (32 * 0)).shl (32 * 1)).shl (32 * 2)).shl (32 * 3))
      (U256.shl_wf _ _) (32 * 4) (32 * 5) (by norm_num)]
    show (U256.mulStep U256.zero U256.zero 6).bind _ = _
    rw [mulStep_zero_me, Option.some_bind]
    show U256.mulStep U256.zero U256.zero 7 = _
    rw [mulStep_zero_me]
  · have c0 : ((fromU64 1).shr (32 * 0)).low_u32 = 0 := by decide
    have c1 : ((fromU64 1).shr (32 * 1)).low_u32 = 0 := by decide
    have c2 : ((fromU64 1).shr (32 * 2)).low_u32 = 0 := by decide
    have c3 : ((fromU64 1).shr (32 * 3)).low_u32 = 0 := by decide
    have c4 : ((fromU64 1).shr (32 * 4)).low_u32 = 0 := by decide
    have c5 : ((fromU64 1).shr (32 * 5)).low_u32 = 0 := by decide
    show (U256.mulStep (fromU64 1) a 0).bind _ = _
    rw [mulStep_low0 _ _ _ ha c0, Option.some_bind]
    show (U256.mulStep (fromU64 1) (a.shl (32 * 0)) 1).bind _ = _
    rw [mulStep_low0 _ _ _ (U256.shl_wf _ _) c1, Option.some_bind]
    show (U256.mulStep (fromU64 1) ((a.shl (32 * 0)).shl (32 * 1)) 2).bind _ = _
    rw [mulStep_low0 _ _ _ (U256.shl_wf _ _) c2, Option.some_bind]
    show (U256.mulStep (fromU64 1) (((a.shl (32 * 0)).shl (32 * 1)).shl (32 * 2)) 3).bind _ = _
    rw [mulStep_low0 _ _ _ (U256.shl_wf _ _) c3, Option.some_bind]
    show (U256.mulStep (fromU64 1) ((((a.shl (32 * 0)).shl (32 * 1)).shl (32 * 2)).shl (32 * 3))
      4).bind _ = _
    rw [mulStep_low0 _ _ _ (U256.shl_wf _ _) c4, Option.some_bind]
    show (U256.mulStep (fromU64 1) (((((a.shl (32 * 0)).shl (32 * 1)).shl (32 * 2)).shl
      (32 * 3)).shl (32 * 4)) 5).bind _ = _
    rw [mulStep_low0 _ _ _ (U256.shl_wf _ _) c5, Option.some_bind]
    rw [shl_shl_ge256 ((((a.shl (32 * 0)).shl (32 * 1)).shl (32 * 2)).shl (32 * 3))
      (U256.shl_wf _ _) (32 * 4) (32 * 5) (by norm_num)]
    show (U256.mulStep (fromU64 1) U256.zero 6).bind _ = _
    rw [mulStep_zero_me, Option.some_bind]
    show U256.mulStep (fromU64 1) U256.zero 7 = _
    rw [mulStep_zero_me]

theorem mul_zero_and_mul_one_witness :
    U256.mul ⟨7, 0, 0, 0⟩ U256.zero = some U256.zero ∧
    U256.mul ⟨7, 0, 0, 0⟩ (fromU64 1) = some U256.zero :=
  mul_zero_and_mul_one ⟨7, 0, 0, 0⟩ (by decide)

/-- C7, counterexample: `U256([1,0,0,0]) * from(1u64)` is `zero()`, not the
left operand, so `from(1u64)` is not a right identity for multiplication. -/
theorem mul_one_cex :
    U256.mul ⟨1, 0, 0, 0⟩ (fromU64 1) = some U256.zero ∧
    (⟨1, 0, 0, 0⟩ : U256) ≠ U256.zero := by decide

/-! ## Claim C10 — byte-slice constructor vs the native constructor -/

/-- Folding `addToLimb` at position 0 only ever touches limb 0. -/
theorem addToLimb_fold_inv (pos f : Nat → Nat) :
    ∀ idxs : List Nat, (∀ i ∈ idxs, pos i = 0) →
      ∀ u0 : U256, u0.l1 = 0 → u0.l2 = 0 → u0.l3 = 0 → u0.l0 < W →
        ((idxs.foldl (fun u i => addToLimb u (pos i) (f i)) u0).l1 = 0 ∧
         (idxs.foldl (fun u i => addToLimb u (pos i) (f i)) u0).l2 = 0 ∧
         (idxs.foldl (fun u i => addToLimb u (pos i) (f i)) u0).l3 = 0 ∧
         (idxs.foldl (fun u i => addToLimb u (pos i) (f i)) u0).l0 < W) := by
  intro idxs
  induction idxs with
  | nil =>
    intro _ u0 e1 e2 e3 hl0
    simpa [List.foldl_nil] using ⟨e1, e2, e3, hl0⟩
  | cons i rest ih =>
    intro hpos u0 e1 e2 e3 hl0
    rw [List.foldl_cons, hpos i (by simp)]
    exact ih (fun j hj => hpos j (by simp [hj])) _
      (by simp [addToLimb, e1]) (by simp [addToLimb, e2]) (by simp [addToLimb, e3])
      (by simp only [addToLimb]; exact Nat.mod_lt _ (by norm_num [W]))

theorem fromBytes_short_only_l0 (l : List Nat) (u : U256) (hlen : l.length ≤ 8)
    (hfb : fromBytes l = some u) :
    u.l1 = 0 ∧ u.l2 = 0 ∧ u.l3 = 0 ∧ u.l0 < W := by
  unfold fromBytes at hfb
  rw [if_pos (by omega)] at hfb
  have hu := Option.some.inj hfb
  rw [← hu]
  exact addToLimb_fold_inv (fun i => (l.length - 1 - i) / 8)
    (fun i => (l.getD i 0 % 256) * 2 ^ ((l.length - 1 - i) % 8 * 8))
    (List.range l.length)
    (fun i hi => by
      have := List.mem_range.mp hi
      show (l.length - 1 - i) / 8 = 0
      omega)
    U256.zero rfl rfl rfl (by norm_num [U256.zero, W])

/-- C10, confirmed: the big-endian byte constructor packs from limb 0 upward
(`[0x01]` gives limb 0 = 1) while `from(1u64)` writes limb 3, so the two
constructors disagree on the same number; and any nonzero value built from a
byte slice of at most 8 bytes has limb 0 nonzero, hence narrowing it back to
`u64` faults even though its represented value fits in 64 bits. -/
theorem byte_constructor_convention_mismatch :
    fromBytes [1] = some ⟨1, 0, 0, 0⟩ ∧
    fromU64 1 = ⟨0, 0, 0, 1⟩ ∧
    fromBytes [1] ≠ some (fromU64 1) ∧
    ∀ (l : List Nat) (u : U256), l.length ≤ 8 → fromBytes l = some u →
      u ≠ U256.zero → intoU64 u = none ∧ u.toVal < 2 ^ 64 := by
  refine ⟨by decide, rfl, by decide, ?_⟩
  intro l u hlen hfb hnz
  obtain ⟨e1, e2, e3, hl0⟩ := fromBytes_short_only_l0 l u hlen hfb
  have hne : ¬(u.l0 = 0) := fun h => hnz (by ext <;> simp [U256.zero, h, e1, e2, e3])
  constructor
  · unfold intoU64
    rw [if_neg (by tauto)]
  · obtain ⟨u0, u1, u2, u3⟩ := u
    simp only [] at e1 e2 e3 hl0
    simp only [U256.toVal, W, e1, e2, e3] at *
    rw [show (2 : Nat) ^ 64 = 18446744073709551616 from by norm_num]
    omega

theorem byte_constructor_convention_mismatch_witness :
    intoU64 ⟨2, 0, 0, 0⟩ = none ∧ U256.toVal ⟨2, 0, 0, 0⟩ < 2 ^ 64 :=
  byte_constructor_convention_mismatch.2.2.2 [2] ⟨2, 0, 0, 0⟩ (by decide) (by decide)
    (by decide)
